import Mathlib

/-!
Verification of the Black-Scholes pricing/grid engine of `src/app.py`.

The Python code is embedded shallowly over the real numbers:
* `scipy.stats.norm.cdf` becomes `Phi`, the integral of the standard normal
  density over `Iic x`;
* `black_scholes` (lines 7-20) becomes a function into `Except String ℝ`,
  with the Python `ValueError` modelled as `Except.error` carrying the message;
* the validation and grid-building part of `main` (lines 22-69) becomes a
  function into `MainResult`; plotting and text output are not modelled.
-/

open MeasureTheory Set Filter Topology

namespace App

/-- Standard normal probability density, `exp (-t²/2) / √(2π)`. -/
noncomputable def normalPdf (t : ℝ) : ℝ := Real.exp (-t ^ 2 / 2) / Real.sqrt (2 * Real.pi)

/-- Standard normal cumulative distribution function `Φ`, the model of
`scipy.stats.norm.cdf` (line 5 of `src/app.py`). -/
noncomputable def Phi (x : ℝ) : ℝ := ∫ t in Iic x, normalPdf t

/-- The message of the `ValueError` raised on line 19 of `src/app.py`. -/
def invalidKindMsg : String := "option_type must be 'call' or 'put'"

/-- Local variable `d1` of `black_scholes` (line 11 of `src/app.py`). -/
noncomputable def d1 (S K T r sigma : ℝ) : ℝ :=
  (Real.log (S / K) + (r + 0.5 * sigma ^ 2) * T) / (sigma * Real.sqrt T)

/-- Local variable `d2` of `black_scholes` (line 12 of `src/app.py`). -/
noncomputable def d2 (S K T r sigma : ℝ) : ℝ := d1 S K T r sigma - sigma * Real.sqrt T

/-- Embedding of `black_scholes` (lines 7-20 of `src/app.py`). -/
noncomputable def black_scholes (S K T r sigma : ℝ) (option_type : String) :
    Except String ℝ :=
  if T ≤ 0 ∨ sigma ≤ 0 then Except.ok 0.0
  else if option_type = "call" then
    Except.ok (S * Phi (d1 S K T r sigma) - K * Real.exp (-r * T) * Phi (d2 S K T r sigma))
  else if option_type = "put" then
    Except.ok (K * Real.exp (-r * T) * Phi (-d2 S K T r sigma) - S * Phi (-d1 S K T r sigma))
  else Except.error invalidKindMsg

/-- The value `black_scholes` returns for `option_type='call'`: the guard of
lines 8-9 followed by the formula of line 15. -/
noncomputable def call_price (S K T r sigma : ℝ) : ℝ :=
  if T ≤ 0 ∨ sigma ≤ 0 then 0
  else S * Phi (d1 S K T r sigma) - K * Real.exp (-r * T) * Phi (d2 S K T r sigma)

/-- The value `black_scholes` returns for `option_type='put'`: the guard of
lines 8-9 followed by the formula of line 17. -/
noncomputable def put_price (S K T r sigma : ℝ) : ℝ :=
  if T ≤ 0 ∨ sigma ≤ 0 then 0
  else K * Real.exp (-r * T) * Phi (-d2 S K T r sigma) - S * Phi (-d1 S K T r sigma)

/-- `np.linspace lo hi n` (lines 54-55 of `src/app.py`): the `i`-th of `n`
evenly spaced samples from `lo` to `hi` inclusive. -/
noncomputable def linspace (lo hi : ℝ) (n : ℕ) (i : ℕ) : ℝ :=
  lo + (hi - lo) * i / ((n : ℝ) - 1)

/-- Spot axis of the heatmaps: `np.linspace (S*0.8) (S*1.2) 10` (lines 46-54). -/
noncomputable def S_range (S : ℝ) (j : ℕ) : ℝ := linspace (S * 0.8) (S * 1.2) 10 j

/-- Volatility axis of the heatmaps: `np.linspace (sigma*0.5) (sigma*1.5) 10`
(lines 47-55). -/
noncomputable def sigma_range (sigma : ℝ) (i : ℕ) : ℝ :=
  linspace (sigma * 0.5) (sigma * 1.5) 10 i

/-- `S_grid` from `np.meshgrid` (line 57): spot varies across columns. -/
noncomputable def S_grid (S : ℝ) (i j : Fin 10) : ℝ := S_range S j

/-- `sigma_grid` from `np.meshgrid` (line 57): volatility varies down rows. -/
noncomputable def sigma_grid (sigma : ℝ) (i j : Fin 10) : ℝ := sigma_range sigma i

/-- The call-price heatmap grid filled by the loop of lines 62-66. -/
noncomputable def call_prices (S K T r sigma : ℝ) (i j : Fin 10) : ℝ :=
  call_price (S_grid S i j) K T r (sigma_grid sigma i j)

/-- The put-price heatmap grid filled by the loop of lines 62-69. -/
noncomputable def put_prices (S K T r sigma : ℝ) (i j : Fin 10) : ℝ :=
  put_price (S_grid S i j) K T r (sigma_grid sigma i j)

/-- The error message of line 36 of `src/app.py`. -/
def rejectMsg : String := "Please make sure S, K, and sigma are positive values, and T is non-negative."

/-- Outcome of one run of `main`: either the validation boundary rejects the
input state with a message (lines 35-37), or the engine is invoked and the two
scalar prices and the two 10×10 heatmap grids are computed (lines 39-69). -/
inductive MainResult where
  | rejected (msg : String) : MainResult
  | computed (callP putP : ℝ) (callGrid putGrid : Fin 10 → Fin 10 → ℝ) : MainResult

/-- Embedding of the computational part of `main` (lines 22-69 of `src/app.py`). -/
noncomputable def main (S K T r sigma : ℝ) : MainResult :=
  if S ≤ 0 ∨ K ≤ 0 ∨ T < 0 ∨ sigma ≤ 0 then MainResult.rejected rejectMsg
  else
    MainResult.computed (call_price S K T r sigma) (put_price S K T r sigma)
      (call_prices S K T r sigma) (put_prices S K T r sigma)

/-- `d1` as §4.1 of the spec words it, written from the spec text
(for the refinement claim about the pricing formula). -/
noncomputable def spec_d1 (spot strike maturity riskFreeRate volatility : ℝ) : ℝ :=
  (Real.log (spot / strike) + (riskFreeRate + 0.5 * volatility ^ 2) * maturity) /
    (volatility * Real.sqrt maturity)

/-- `d2` as §4.1 of the spec words it. -/
noncomputable def spec_d2 (spot strike maturity riskFreeRate volatility : ℝ) : ℝ :=
  spec_d1 spot strike maturity riskFreeRate volatility - volatility * Real.sqrt maturity

/-- The call price of §4.1 of the spec:
`spot·Φ(d1) − strike·e^(−riskFreeRate·maturity)·Φ(d2)`. -/
noncomputable def spec_call_price (spot strike maturity riskFreeRate volatility : ℝ) : ℝ :=
  spot * Phi (spec_d1 spot strike maturity riskFreeRate volatility) -
    strike * Real.exp (-riskFreeRate * maturity) *
      Phi (spec_d2 spot strike maturity riskFreeRate volatility)

/-- The put price of §4.1 of the spec:
`strike·e^(−riskFreeRate·maturity)·Φ(−d2) − spot·Φ(−d1)`. -/
noncomputable def spec_put_price (spot strike maturity riskFreeRate volatility : ℝ) : ℝ :=
  strike * Real.exp (-riskFreeRate * maturity) *
      Phi (-spec_d2 spot strike maturity riskFreeRate volatility) -
    spot * Phi (-spec_d1 spot strike maturity riskFreeRate volatility)

/-- The lower Mills-type ratio `Φ(x)/φ(x)`, used to compare `Φ` at `d1` and
`d2`. -/
noncomputable def mills (x : ℝ) : ℝ := Phi x / normalPdf x

/-- The upper Mills-type ratio `Φ(-x)/φ(x)`. -/
noncomputable def millsUpper (x : ℝ) : ℝ := Phi (-x) / normalPdf x

/-! ### Basic facts about the engine's branches -/

theorem black_scholes_call (S K T r sigma : ℝ) :
    black_scholes S K T r sigma ("call") = Except.ok (call_price S K T r sigma) := by
  unfold black_scholes call_price
  split <;> norm_num

theorem black_scholes_put (S K T r sigma : ℝ) :
    black_scholes S K T r sigma ("put") = Except.ok (put_price S K T r sigma) := by
  unfold black_scholes put_price
  split
  · norm_num
  · rw [if_neg (by decide : ¬("put" = "call")), if_pos rfl]

theorem black_scholes_degenerate (S K T r sigma : ℝ) (option_type : String)
    (h : T ≤ 0 ∨ sigma ≤ 0) :
    black_scholes S K T r sigma option_type = Except.ok 0 := by
  unfold black_scholes
  rw [if_pos h]
  norm_num

theorem call_price_of_pos {T sigma : ℝ} (hT : 0 < T) (hsig : 0 < sigma) (S K r : ℝ) :
    call_price S K T r sigma =
      S * Phi (d1 S K T r sigma) - K * Real.exp (-r * T) * Phi (d2 S K T r sigma) :=
  if_neg (by push_neg; exact ⟨hT, hsig⟩)

theorem put_price_of_pos {T sigma : ℝ} (hT : 0 < T) (hsig : 0 < sigma) (S K r : ℝ) :
    put_price S K T r sigma =
      K * Real.exp (-r * T) * Phi (-d2 S K T r sigma) - S * Phi (-d1 S K T r sigma) :=
  if_neg (by push_neg; exact ⟨hT, hsig⟩)

/-! ### The standard normal density and CDF -/

theorem normalPdf_pos (t : ℝ) : 0 < normalPdf t := by
  unfold normalPdf
  positivity

theorem normalPdf_neg (t : ℝ) : normalPdf (-t) = normalPdf t := by
  unfold normalPdf
  rw [neg_pow]
  norm_num

theorem normalPdf_eq (t : ℝ) :
    normalPdf t = Real.exp (-(1 / 2 : ℝ) * t ^ 2) / Real.sqrt (2 * Real.pi) := by
  unfold normalPdf
  ring_nf

theorem continuous_normalPdf : Continuous normalPdf := by
  unfold normalPdf
  fun_prop

theorem integrable_normalPdf : Integrable normalPdf := by
  have h := (integrable_exp_neg_mul_sq (by norm_num : (0 : ℝ) < 1 / 2)).div_const
    (Real.sqrt (2 * Real.pi))
  exact h.congr (Filter.EventuallyEq.of_eq (funext fun t => (normalPdf_eq t).symm))

theorem integral_normalPdf : ∫ t, normalPdf t = 1 := by
  have h : ∫ t : ℝ, Real.exp (-(1 / 2 : ℝ) * t ^ 2) = Real.sqrt (Real.pi / (1 / 2)) :=
    integral_gaussian (1 / 2)
  have h2 : (Real.pi / (1 / 2) : ℝ) = 2 * Real.pi := by ring
  calc ∫ t, normalPdf t
      = ∫ t : ℝ, Real.exp (-(1 / 2 : ℝ) * t ^ 2) / Real.sqrt (2 * Real.pi) := by
        simp only [normalPdf_eq]
    _ = (∫ t : ℝ, Real.exp (-(1 / 2 : ℝ) * t ^ 2)) / Real.sqrt (2 * Real.pi) :=
        integral_div _ _
    _ = 1 := by
        rw [h, h2, div_self (ne_of_gt (Real.sqrt_pos.mpr (by positivity)))]

theorem Phi_nonneg (x : ℝ) : 0 ≤ Phi x :=
  setIntegral_nonneg measurableSet_Iic fun t _ => (normalPdf_pos t).le

theorem Phi_le_one (x : ℝ) : Phi x ≤ 1 := by
  rw [← integral_normalPdf]
  exact setIntegral_le_integral integrable_normalPdf
    (Filter.Eventually.of_forall fun t => (normalPdf_pos t).le)

theorem Phi_mono : Monotone Phi := fun a b hab =>
  setIntegral_mono_set integrable_normalPdf.integrableOn
    (Filter.Eventually.of_forall fun t => (normalPdf_pos t).le)
    (HasSubset.Subset.eventuallyLE (Iic_subset_Iic.mpr hab))

theorem Phi_add_Phi_neg (x : ℝ) : Phi x + Phi (-x) = 1 := by
  have h1 : Phi (-x) = ∫ t in Ioi x, normalPdf t := by
    have h := integral_comp_neg_Iic (-x) normalPdf
    simp only [normalPdf_neg] at h
    unfold Phi
    rw [h, neg_neg]
  rw [h1, ← integral_normalPdf]
  exact intervalIntegral.integral_Iic_add_Ioi integrable_normalPdf.integrableOn
    integrable_normalPdf.integrableOn

theorem hasDerivAt_Phi (x : ℝ) : HasDerivAt Phi (normalPdf x) x := by
  have key : ∀ y : ℝ, Phi y = Phi 0 + ∫ t in (0 : ℝ)..y, normalPdf t := by
    intro y
    have h : (∫ t in Iic y, normalPdf t) - ∫ t in Iic (0 : ℝ), normalPdf t =
        ∫ t in (0 : ℝ)..y, normalPdf t :=
      intervalIntegral.integral_Iic_sub_Iic integrable_normalPdf.integrableOn
        integrable_normalPdf.integrableOn
    unfold Phi
    linarith [h]
  have hD : HasDerivAt (fun y => Phi 0 + ∫ t in (0 : ℝ)..y, normalPdf t) (normalPdf x) x := by
    have h1 : IntervalIntegrable normalPdf volume 0 x :=
      integrable_normalPdf.intervalIntegrable
    have h2 := intervalIntegral.integral_hasDerivAt_right h1
      (continuous_normalPdf.stronglyMeasurableAtFilter volume (nhds x))
      continuous_normalPdf.continuousAt
    simpa using (hasDerivAt_const x (Phi 0)).add h2
  exact hD.congr_of_eventuallyEq (Filter.Eventually.of_forall key)

theorem continuous_Phi : Continuous Phi :=
  continuous_iff_continuousAt.mpr fun x => (hasDerivAt_Phi x).continuousAt

theorem hasDerivAt_normalPdf (x : ℝ) : HasDerivAt normalPdf (-x * normalPdf x) x := by
  have h1 : HasDerivAt (fun t : ℝ => -t ^ 2 / 2) (-x) x := by
    have h := ((hasDerivAt_pow 2 x).neg).div_const 2
    convert h using 1
    push_cast
    ring
  have h2 := h1.exp.div_const (Real.sqrt (2 * Real.pi))
  have h3 : Real.exp (-x ^ 2 / 2) * -x / Real.sqrt (2 * Real.pi) = -x * normalPdf x := by
    unfold normalPdf
    ring
  rw [← h3]
  exact h2

theorem tendsto_normalPdf_atBot : Tendsto normalPdf atBot (𝓝 0) := by
  have hsq : Tendsto (fun t : ℝ => t ^ 2) atBot atTop := by
    have h0 : Tendsto (fun x : ℝ => x ^ 2) atTop atTop := tendsto_pow_atTop (by norm_num)
    have h1 : Tendsto (fun x : ℝ => -x) atBot atTop := tendsto_neg_atBot_atTop
    have h := h0.comp h1
    refine h.congr fun t => ?_
    simp [Function.comp, neg_sq]
  have harg : Tendsto (fun t : ℝ => -t ^ 2 / 2) atBot atBot :=
    (tendsto_neg_atTop_atBot.comp hsq).atBot_div_const (by norm_num)
  have hexp : Tendsto (fun t : ℝ => Real.exp (-t ^ 2 / 2)) atBot (𝓝 0) :=
    Real.tendsto_exp_atBot.comp harg
  have h := hexp.div_const (Real.sqrt (2 * Real.pi))
  rw [zero_div] at h
  exact h

theorem integrable_neg_mul_normalPdf : Integrable fun t : ℝ => -t * normalPdf t := by
  have h := ((integrable_mul_exp_neg_mul_sq (by norm_num : (0 : ℝ) < 1 / 2)).div_const
    (Real.sqrt (2 * Real.pi))).neg
  refine h.congr (Filter.EventuallyEq.of_eq (funext fun t => ?_))
  simp only [Pi.neg_apply]
  rw [normalPdf_eq]
  ring

theorem integral_Iic_neg_mul_normalPdf (c : ℝ) :
    ∫ t in Iic c, -t * normalPdf t = normalPdf c := by
  have h : ∫ t in Iic c, -t * normalPdf t = normalPdf c - 0 :=
    integral_Iic_of_hasDerivAt_of_tendsto' (fun t _ => hasDerivAt_normalPdf t)
      integrable_neg_mul_normalPdf.integrableOn
      tendsto_normalPdf_atBot
  simpa using h

theorem neg_mul_Phi_le (x : ℝ) : -x * Phi x ≤ normalPdf x := by
  have hint1 : IntegrableOn (fun t : ℝ => -x * normalPdf t) (Iic x) :=
    (integrable_normalPdf.const_mul (-x)).integrableOn
  have hint2 : IntegrableOn (fun t : ℝ => -t * normalPdf t) (Iic x) :=
    integrable_neg_mul_normalPdf.integrableOn
  have hmono := setIntegral_mono_on hint1 hint2 measurableSet_Iic fun t ht =>
    mul_le_mul_of_nonneg_right (by simp only [neg_le_neg_iff]; exact ht)
      (normalPdf_pos t).le
  rw [integral_mul_left, integral_Iic_neg_mul_normalPdf] at hmono
  exact hmono

theorem hasDerivAt_mills (x : ℝ) : HasDerivAt mills (1 + x * mills x) x := by
  have h := (hasDerivAt_Phi x).div (hasDerivAt_normalPdf x) (normalPdf_pos x).ne'
  have hp := (normalPdf_pos x).ne'
  have hval : (normalPdf x * normalPdf x - Phi x * (-x * normalPdf x)) / normalPdf x ^ 2 =
      1 + x * mills x := by
    unfold mills
    field_simp
    ring
  rw [← hval]
  exact h

theorem mills_mono : Monotone mills := by
  refine monotone_of_deriv_nonneg (fun x => (hasDerivAt_mills x).differentiableAt) fun x => ?_
  rw [(hasDerivAt_mills x).deriv]
  have hp := normalPdf_pos x
  have hkey : 0 ≤ normalPdf x + x * Phi x := by
    have h := neg_mul_Phi_le x
    linarith
  have hval : 1 + x * mills x = (normalPdf x + x * Phi x) / normalPdf x := by
    unfold mills
    field_simp
  rw [hval]
  exact div_nonneg hkey hp.le

theorem Phi_mul_normalPdf_le {a b : ℝ} (hab : a ≤ b) :
    Phi a * normalPdf b ≤ Phi b * normalPdf a := by
  have h := mills_mono hab
  unfold mills at h
  rw [div_le_div_iff₀ (normalPdf_pos a) (normalPdf_pos b)] at h
  exact h

theorem hasDerivAt_millsUpper (x : ℝ) :
    HasDerivAt millsUpper (-1 + x * millsUpper x) x := by
  have hPhiNeg : HasDerivAt (fun y : ℝ => Phi (-y)) (-normalPdf x) x := by
    have h := (hasDerivAt_Phi (-x)).comp x (hasDerivAt_neg x)
    have he : normalPdf (-x) * -1 = -normalPdf x := by rw [normalPdf_neg]; ring
    rw [he] at h
    exact h
  have h := hPhiNeg.div (hasDerivAt_normalPdf x) (normalPdf_pos x).ne'
  have hp := (normalPdf_pos x).ne'
  have hval : (-normalPdf x * normalPdf x - Phi (-x) * (-x * normalPdf x)) / normalPdf x ^ 2 =
      -1 + x * millsUpper x := by
    unfold millsUpper
    field_simp
    ring
  rw [← hval]
  exact h

theorem millsUpper_anti : Antitone millsUpper := by
  refine antitone_of_deriv_nonpos
    (fun x => (hasDerivAt_millsUpper x).differentiableAt) fun x => ?_
  rw [(hasDerivAt_millsUpper x).deriv]
  have hp := normalPdf_pos x
  have hkey : x * Phi (-x) ≤ normalPdf x := by
    have h := neg_mul_Phi_le (-x)
    rw [normalPdf_neg, neg_neg] at h
    exact h
  have hval : -1 + x * millsUpper x = (x * Phi (-x) - normalPdf x) / normalPdf x := by
    unfold millsUpper
    field_simp
    ring
  rw [hval]
  exact div_nonpos_iff.mpr (Or.inr ⟨by linarith, hp.le⟩)

theorem Phi_neg_mul_normalPdf_le {a b : ℝ} (hab : a ≤ b) :
    Phi (-b) * normalPdf a ≤ Phi (-a) * normalPdf b := by
  have h := millsUpper_anti hab
  unfold millsUpper at h
  rw [div_le_div_iff₀ (normalPdf_pos b) (normalPdf_pos a)] at h
  exact h

/-- The classical cancellation identity `S·φ(d1) = K·e^(-rT)·φ(d2)`. -/
theorem spot_pdf_identity {S K T sigma : ℝ} (r : ℝ) (hS : 0 < S) (hK : 0 < K)
    (hT : 0 < T) (hsig : 0 < sigma) :
    S * normalPdf (d1 S K T r sigma) =
      K * Real.exp (-r * T) * normalPdf (d2 S K T r sigma) := by
  have ha : (0 : ℝ) < sigma * Real.sqrt T := mul_pos hsig (Real.sqrt_pos.mpr hT)
  have hd1 : d1 S K T r sigma * (sigma * Real.sqrt T) =
      Real.log S - Real.log K + (r + 0.5 * sigma ^ 2) * T := by
    unfold d1
    rw [div_mul_cancel₀ _ ha.ne', Real.log_div hS.ne' hK.ne']
  have hsq : (sigma * Real.sqrt T) ^ 2 = sigma ^ 2 * T := by
    rw [mul_pow, Real.sq_sqrt hT.le]
  have hkey : d1 S K T r sigma ^ 2 - d2 S K T r sigma ^ 2 =
      2 * (Real.log S - Real.log K + r * T) := by
    unfold d2
    nlinarith [hd1, hsq]
  have hexp : Real.exp (-d1 S K T r sigma ^ 2 / 2) =
      Real.exp (Real.log K - Real.log S - r * T) * Real.exp (-d2 S K T r sigma ^ 2 / 2) := by
    rw [← Real.exp_add]
    congr 1
    linarith [hkey]
  have hrT : Real.exp (-r * T) = (Real.exp (r * T))⁻¹ := by
    rw [neg_mul, Real.exp_neg]
  unfold normalPdf
  rw [hexp, Real.exp_sub, Real.exp_sub, Real.exp_log hS, Real.exp_log hK, hrT]
  have hc : Real.sqrt (2 * Real.pi) ≠ 0 := (Real.sqrt_pos.mpr (by positivity)).ne'
  field_simp
  ring

theorem d2_le_d1 {T sigma : ℝ} (hT : 0 < T) (hsig : 0 < sigma) (S K r : ℝ) :
    d2 S K T r sigma ≤ d1 S K T r sigma := by
  have ha : (0 : ℝ) < sigma * Real.sqrt T := mul_pos hsig (Real.sqrt_pos.mpr hT)
  unfold d2
  linarith

theorem call_price_nonneg {S K T sigma : ℝ} (r : ℝ) (hS : 0 < S) (hK : 0 < K)
    (hT : 0 < T) (hsig : 0 < sigma) : 0 ≤ call_price S K T r sigma := by
  rw [call_price_of_pos hT hsig]
  have hcomp := Phi_mul_normalPdf_le (d2_le_d1 hT hsig S K r)
  have hid := spot_pdf_identity r hS hK hT hsig
  have hp2 := normalPdf_pos (d2 S K T r sigma)
  have h3 : S * (Phi (d2 S K T r sigma) * normalPdf (d1 S K T r sigma)) ≤
      S * (Phi (d1 S K T r sigma) * normalPdf (d2 S K T r sigma)) :=
    mul_le_mul_of_nonneg_left hcomp hS.le
  have hid2 : S * normalPdf (d1 S K T r sigma) * Phi (d2 S K T r sigma) =
      K * Real.exp (-r * T) * normalPdf (d2 S K T r sigma) * Phi (d2 S K T r sigma) := by
    rw [hid]
  have h4 : K * Real.exp (-r * T) * Phi (d2 S K T r sigma) * normalPdf (d2 S K T r sigma) ≤
      S * Phi (d1 S K T r sigma) * normalPdf (d2 S K T r sigma) := by nlinarith [h3, hid2]
  have h5 := le_of_mul_le_mul_right h4 hp2
  linarith

theorem put_price_nonneg {S K T sigma : ℝ} (r : ℝ) (hS : 0 < S) (hK : 0 < K)
    (hT : 0 < T) (hsig : 0 < sigma) : 0 ≤ put_price S K T r sigma := by
  rw [put_price_of_pos hT hsig]
  have hcomp := Phi_neg_mul_normalPdf_le (d2_le_d1 hT hsig S K r)
  have hid := spot_pdf_identity r hS hK hT hsig
  have hp2 := normalPdf_pos (d2 S K T r sigma)
  have h3 : S * (Phi (-d1 S K T r sigma) * normalPdf (d2 S K T r sigma)) ≤
      S * (Phi (-d2 S K T r sigma) * normalPdf (d1 S K T r sigma)) :=
    mul_le_mul_of_nonneg_left hcomp hS.le
  have hid2 : S * normalPdf (d1 S K T r sigma) * Phi (-d2 S K T r sigma) =
      K * Real.exp (-r * T) * normalPdf (d2 S K T r sigma) * Phi (-d2 S K T r sigma) := by
    rw [hid]
  have h4 : S * Phi (-d1 S K T r sigma) * normalPdf (d2 S K T r sigma) ≤
      K * Real.exp (-r * T) * Phi (-d2 S K T r sigma) * normalPdf (d2 S K T r sigma) := by
    nlinarith [h3, hid2]
  have h5 := le_of_mul_le_mul_right h4 hp2
  linarith

theorem parity_core {S K T sigma : ℝ} (r : ℝ) (hT : 0 < T) (hsig : 0 < sigma) :
    call_price S K T r sigma - put_price S K T r sigma = S - K * Real.exp (-r * T) := by
  rw [call_price_of_pos hT hsig, put_price_of_pos hT hsig]
  have h1 := Phi_add_Phi_neg (d1 S K T r sigma)
  have h2 := Phi_add_Phi_neg (d2 S K T r sigma)
  linear_combination S * h1 - K * Real.exp (-r * T) * h2

theorem hasDerivAt_d1 {K T sigma : ℝ} (r : ℝ) (hK : 0 < K) (hT : 0 < T) (hsig : 0 < sigma)
    {S : ℝ} (hS : 0 < S) :
    HasDerivAt (fun s => d1 s K T r sigma) (1 / (S * (sigma * Real.sqrt T))) S := by
  have ha : (0 : ℝ) < sigma * Real.sqrt T := mul_pos hsig (Real.sqrt_pos.mpr hT)
  have hdiv : HasDerivAt (fun s : ℝ => s / K) (1 / K) S := by
    simpa using (hasDerivAt_id S).div_const K
  have hlog : HasDerivAt (fun s : ℝ => Real.log (s / K)) ((S / K)⁻¹ * (1 / K)) S :=
    (Real.hasDerivAt_log (div_ne_zero hS.ne' hK.ne')).comp S hdiv
  have hnum := hlog.add_const ((r + 0.5 * sigma ^ 2) * T)
  have h := hnum.div_const (sigma * Real.sqrt T)
  have hval : (S / K)⁻¹ * (1 / K) / (sigma * Real.sqrt T) =
      1 / (S * (sigma * Real.sqrt T)) := by
    field_simp
    ring
  rw [← hval]
  exact h

theorem hasDerivAt_call_in_spot {K T r sigma : ℝ} (hK : 0 < K) (hT : 0 < T)
    (hsig : 0 < sigma) {S : ℝ} (hS : 0 < S) :
    HasDerivAt (fun s => call_price s K T r sigma) (Phi (d1 S K T r sigma)) S := by
  have ha : (0 : ℝ) < sigma * Real.sqrt T := mul_pos hsig (Real.sqrt_pos.mpr hT)
  have hd1 := hasDerivAt_d1 r hK hT hsig hS
  have hd2 : HasDerivAt (fun s => d2 s K T r sigma) (1 / (S * (sigma * Real.sqrt T))) S :=
    hd1.sub_const (sigma * Real.sqrt T)
  have hP1 : HasDerivAt (fun s => Phi (d1 s K T r sigma))
      (normalPdf (d1 S K T r sigma) * (1 / (S * (sigma * Real.sqrt T)))) S :=
    (hasDerivAt_Phi _).comp S hd1
  have hP2 : HasDerivAt (fun s => Phi (d2 s K T r sigma))
      (normalPdf (d2 S K T r sigma) * (1 / (S * (sigma * Real.sqrt T)))) S :=
    (hasDerivAt_Phi _).comp S hd2
  have hterm1 := (hasDerivAt_id S).mul hP1
  have hterm2 := hP2.const_mul (K * Real.exp (-r * T))
  have hF := hterm1.sub hterm2
  have hid := spot_pdf_identity r hS hK hT hsig
  have hval : 1 * Phi (d1 S K T r sigma) +
      S * (normalPdf (d1 S K T r sigma) * (1 / (S * (sigma * Real.sqrt T)))) -
      K * Real.exp (-r * T) *
        (normalPdf (d2 S K T r sigma) * (1 / (S * (sigma * Real.sqrt T)))) =
      Phi (d1 S K T r sigma) := by
    linear_combination (1 / (S * (sigma * Real.sqrt T))) * hid
  simp only [id_eq] at hF
  rw [hval] at hF
  exact hF.congr_of_eventuallyEq
    (Filter.Eventually.of_forall fun s => call_price_of_pos hT hsig s K r)

theorem hasDerivAt_put_in_spot {K T r sigma : ℝ} (hK : 0 < K) (hT : 0 < T)
    (hsig : 0 < sigma) {S : ℝ} (hS : 0 < S) :
    HasDerivAt (fun s => put_price s K T r sigma) (-Phi (-d1 S K T r sigma)) S := by
  have ha : (0 : ℝ) < sigma * Real.sqrt T := mul_pos hsig (Real.sqrt_pos.mpr hT)
  have hd1 := hasDerivAt_d1 r hK hT hsig hS
  have hd2 : HasDerivAt (fun s => d2 s K T r sigma) (1 / (S * (sigma * Real.sqrt T))) S :=
    hd1.sub_const (sigma * Real.sqrt T)
  have hP1 : HasDerivAt (fun s => Phi (-d1 s K T r sigma))
      (normalPdf (-d1 S K T r sigma) * -(1 / (S * (sigma * Real.sqrt T)))) S :=
    (hasDerivAt_Phi _).comp S hd1.neg
  have hP2 : HasDerivAt (fun s => Phi (-d2 s K T r sigma))
      (normalPdf (-d2 S K T r sigma) * -(1 / (S * (sigma * Real.sqrt T)))) S :=
    (hasDerivAt_Phi _).comp S hd2.neg
  have hterm1 := hP2.const_mul (K * Real.exp (-r * T))
  have hterm2 := (hasDerivAt_id S).mul hP1
  have hF := hterm1.sub hterm2
  have hid := spot_pdf_identity r hS hK hT hsig
  have hval : K * Real.exp (-r * T) *
      (normalPdf (-d2 S K T r sigma) * -(1 / (S * (sigma * Real.sqrt T)))) -
      (1 * Phi (-d1 S K T r sigma) +
        S * (normalPdf (-d1 S K T r sigma) * -(1 / (S * (sigma * Real.sqrt T))))) =
      -Phi (-d1 S K T r sigma) := by
    rw [normalPdf_neg, normalPdf_neg]
    linear_combination (1 / (S * (sigma * Real.sqrt T))) * hid
  simp only [id_eq] at hF
  rw [hval] at hF
  exact hF.congr_of_eventuallyEq
    (Filter.Eventually.of_forall fun s => put_price_of_pos hT hsig s K r)

theorem call_price_monotoneOn {K T r sigma : ℝ} (hK : 0 < K) (hT : 0 < T)
    (hsig : 0 < sigma) : MonotoneOn (fun s => call_price s K T r sigma) (Ioi 0) := by
  apply monotoneOn_of_deriv_nonneg (convex_Ioi 0)
  · intro s hs
    exact (hasDerivAt_call_in_spot hK hT hsig (mem_Ioi.mp hs)).continuousAt.continuousWithinAt
  · rw [interior_Ioi]
    intro s hs
    exact (hasDerivAt_call_in_spot hK hT hsig
      (mem_Ioi.mp hs)).differentiableAt.differentiableWithinAt
  · rw [interior_Ioi]
    intro s hs
    rw [(hasDerivAt_call_in_spot hK hT hsig (mem_Ioi.mp hs)).deriv]
    exact Phi_nonneg _

theorem put_price_antitoneOn {K T r sigma : ℝ} (hK : 0 < K) (hT : 0 < T)
    (hsig : 0 < sigma) : AntitoneOn (fun s => put_price s K T r sigma) (Ioi 0) := by
  apply antitoneOn_of_deriv_nonpos (convex_Ioi 0)
  · intro s hs
    exact (hasDerivAt_put_in_spot hK hT hsig (mem_Ioi.mp hs)).continuousAt.continuousWithinAt
  · rw [interior_Ioi]
    intro s hs
    exact (hasDerivAt_put_in_spot hK hT hsig
      (mem_Ioi.mp hs)).differentiableAt.differentiableWithinAt
  · rw [interior_Ioi]
    intro s hs
    rw [(hasDerivAt_put_in_spot hK hT hsig (mem_Ioi.mp hs)).deriv]
    simpa using Phi_nonneg (-d1 s K T r sigma)

theorem call_price_degenerate {T sigma : ℝ} (h : T ≤ 0 ∨ sigma ≤ 0) (S K r : ℝ) :
    call_price S K T r sigma = 0 := if_pos h

theorem put_price_degenerate {T sigma : ℝ} (h : T ≤ 0 ∨ sigma ≤ 0) (S K r : ℝ) :
    put_price S K T r sigma = 0 := if_pos h

/-! ### The claims -/

/-- C1: for every input with spot>0, strike>0, maturity>0 and volatility>0,
`black_scholes` computes `d1 = (ln(S/K) + (r + σ²/2)·T)/(σ·√T)` and
`d2 = d1 − σ·√T` and returns `S·Φ(d1) − K·e^(−rT)·Φ(d2)` for kind call and
`K·e^(−rT)·Φ(−d2) − S·Φ(−d1)` for kind put, with `Φ` the standard normal CDF. -/
theorem C1_price_formula_matches_spec (S K T r sigma : ℝ)
    (hS : 0 < S) (hK : 0 < K) (hT : 0 < T) (hsig : 0 < sigma) :
    black_scholes S K T r sigma ("call") = Except.ok (spec_call_price S K T r sigma) ∧
    black_scholes S K T r sigma ("put") = Except.ok (spec_put_price S K T r sigma) := by
  constructor
  · rw [black_scholes_call, call_price_of_pos hT hsig]
    rfl
  · rw [black_scholes_put, put_price_of_pos hT hsig]
    rfl

theorem C1_witness :
    black_scholes 100 100 1 0.05 0.2 ("call") =
      Except.ok (spec_call_price 100 100 1 0.05 0.2) ∧
    black_scholes 100 100 1 0.05 0.2 ("put") =
      Except.ok (spec_put_price 100 100 1 0.05 0.2) :=
  C1_price_formula_matches_spec 100 100 1 0.05 0.2 (by norm_num) (by norm_num)
    (by norm_num) (by norm_num)

/-- C2: for every input with maturity ≤ 0 or volatility ≤ 0, `black_scholes`
returns exactly `0.0`, for any kind, regardless of spot, strike and rate. -/
theorem C2_degenerate_returns_zero (S K T r sigma : ℝ) (option_type : String)
    (h : T ≤ 0 ∨ sigma ≤ 0) :
    black_scholes S K T r sigma option_type = Except.ok 0 :=
  black_scholes_degenerate S K T r sigma option_type h

theorem C2_witness :
    black_scholes 100 100 0 0.05 0.2 ("put") = Except.ok 0 ∧
    black_scholes 100 100 1 0.05 0 ("call") = Except.ok 0 :=
  ⟨C2_degenerate_returns_zero 100 100 0 0.05 0.2 ("put") (Or.inl le_rfl),
   C2_degenerate_returns_zero 100 100 1 0.05 0 ("call") (Or.inr le_rfl)⟩

/-- C3 as stated is false on the code, in two ways: with `T=0` (or `σ=0`) an
input with an invalid kind does NOT fail (the degenerate guard of line 8 fires
first and returns `0.0`), and when the `ValueError` of line 19 is raised, its
message is the fixed string `option_type must be 'call' or 'put'`, which does
not name the offending kind value. -/
theorem C3_counterexample :
    black_scholes 100 100 0 0.05 0.2 ("invalid") = Except.ok 0 ∧
    black_scholes 100 100 1 0.05 0.2 ("invalid") = Except.error invalidKindMsg ∧
    ¬ List.IsInfix ("invalid").toList invalidKindMsg.toList := by
  refine ⟨?_, ?_, ?_⟩
  · unfold black_scholes
    rw [if_pos (Or.inl le_rfl)]
    norm_num
  · unfold black_scholes
    rw [if_neg (by norm_num : ¬((1 : ℝ) ≤ 0 ∨ (0.2 : ℝ) ≤ 0)),
      if_neg (by decide : ¬("invalid" = "call")), if_neg (by decide : ¬("invalid" = "put"))]
  · decide

/-- C3 amended: for inputs with maturity > 0 and volatility > 0, a kind outside
{call, put} fails with the fixed `ValueError` message (which does not name the
offending value); and `black_scholes` never fails for kind call or kind put. -/
theorem C3_invalid_kind_amended (S K T r sigma : ℝ) (kind : String)
    (hT : 0 < T) (hsig : 0 < sigma) (hc : kind ≠ "call") (hp : kind ≠ "put") :
    black_scholes S K T r sigma kind = Except.error invalidKindMsg ∧
    (∀ S2 K2 T2 r2 sigma2 : ℝ, ∀ e : String,
      black_scholes S2 K2 T2 r2 sigma2 ("call") ≠ Except.error e ∧
      black_scholes S2 K2 T2 r2 sigma2 ("put") ≠ Except.error e) := by
  constructor
  · unfold black_scholes
    rw [if_neg (by push_neg; exact ⟨hT, hsig⟩), if_neg hc, if_neg hp]
  · intro S2 K2 T2 r2 sigma2 e
    constructor
    · rw [black_scholes_call]
      simp
    · rw [black_scholes_put]
      simp

theorem C3_witness :
    black_scholes 100 100 1 0.05 0.2 ("x") = Except.error invalidKindMsg :=
  (C3_invalid_kind_amended 100 100 1 0.05 0.2 ("x") (by norm_num) (by norm_num)
    (by decide) (by decide)).1

/-- C4: the heatmap grids are 10×10 (the index type is `Fin 10 → Fin 10`); the
spot axis runs over 10 evenly spaced values from `0.8·S` to `1.2·S` inclusive,
the volatility axis over 10 evenly spaced values from `0.5·σ` to `1.5·σ`
inclusive, and the cell at row `i`, column `j` of each grid is the price at
spot `S_range[j]` and volatility `sigma_range[i]` with strike, maturity and
rate held fixed (row = volatility, column = spot). -/
theorem C4_grid_spec (S K T r sigma : ℝ) :
    S_range S 0 = 0.8 * S ∧ S_range S 9 = 1.2 * S ∧
    (∀ j : ℕ, j + 1 < 10 →
      S_range S (j + 1) - S_range S j = (1.2 * S - 0.8 * S) / 9) ∧
    sigma_range sigma 0 = 0.5 * sigma ∧ sigma_range sigma 9 = 1.5 * sigma ∧
    (∀ i : ℕ, i + 1 < 10 →
      sigma_range sigma (i + 1) - sigma_range sigma i =
        (1.5 * sigma - 0.5 * sigma) / 9) ∧
    (∀ i j : Fin 10,
      call_prices S K T r sigma i j =
        call_price (S_range S j) K T r (sigma_range sigma i) ∧
      put_prices S K T r sigma i j =
        put_price (S_range S j) K T r (sigma_range sigma i) ∧
      black_scholes (S_range S j) K T r (sigma_range sigma i) ("call") =
        Except.ok (call_prices S K T r sigma i j) ∧
      black_scholes (S_range S j) K T r (sigma_range sigma i) ("put") =
        Except.ok (put_prices S K T r sigma i j)) := by
  refine ⟨?_, ?_, ?_, ?_, ?_, ?_, ?_⟩
  · unfold S_range linspace
    norm_num
    ring
  · unfold S_range linspace
    norm_num
    ring
  · intro j hj
    unfold S_range linspace
    push_cast
    ring
  · unfold sigma_range linspace
    norm_num
    ring
  · unfold sigma_range linspace
    norm_num
    ring
  · intro i hi
    unfold sigma_range linspace
    push_cast
    ring
  · intro i j
    exact ⟨rfl, rfl, by rw [black_scholes_call]; exact rfl,
      by rw [black_scholes_put]; exact rfl⟩

theorem C4_witness :
    S_range 100 (0 + 1) - S_range 100 0 = (1.2 * 100 - 0.8 * 100) / 9 :=
  (C4_grid_spec 100 100 1 0.05 0.2).2.2.1 0 (by norm_num)

/-- C5: put-call parity. For every input with spot>0, strike>0, maturity>0,
volatility>0, the call price minus the put price equals
`S − K·e^(−r·T)`, exactly, over the real-number embedding. -/
theorem C5_put_call_parity (S K T r sigma : ℝ) (hS : 0 < S) (hK : 0 < K)
    (hT : 0 < T) (hsig : 0 < sigma) :
    black_scholes S K T r sigma ("call") = Except.ok (call_price S K T r sigma) ∧
    black_scholes S K T r sigma ("put") = Except.ok (put_price S K T r sigma) ∧
    call_price S K T r sigma - put_price S K T r sigma =
      S - K * Real.exp (-r * T) :=
  ⟨black_scholes_call S K T r sigma, black_scholes_put S K T r sigma,
    parity_core r hT hsig⟩

theorem C5_witness :
    call_price 100 100 1 0.05 0.2 - put_price 100 100 1 0.05 0.2 =
      100 - 100 * Real.exp (-0.05 * 1) :=
  (C5_put_call_parity 100 100 1 0.05 0.2 (by norm_num) (by norm_num) (by norm_num)
    (by norm_num)).2.2

/-- C6 as stated is false on the code: an input with `σ = 0` exactly is
rejected at the validation boundary (line 35 tests `sigma <= 0`), so it never
reaches the engine. -/
theorem C6_counterexample : main 100 100 1 0.05 0 = MainResult.rejected rejectMsg := by
  unfold main
  rw [if_pos (Or.inr (Or.inr (Or.inr le_rfl)))]

/-- C6 amended: inputs with `T = 0` exactly pass the boundary validation and
reach the engine, where the internal degenerate guard returns `0.0` instead of
failing; inputs with `σ = 0` exactly are rejected at the boundary and never
reach the engine. -/
theorem C6_degenerate_boundary_amended (S K r sigma : ℝ)
    (hS : 0 < S) (hK : 0 < K) (hsig : 0 < sigma) :
    main S K 0 r sigma =
      MainResult.computed (call_price S K 0 r sigma) (put_price S K 0 r sigma)
        (call_prices S K 0 r sigma) (put_prices S K 0 r sigma) ∧
    call_price S K 0 r sigma = 0 ∧ put_price S K 0 r sigma = 0 ∧
    black_scholes S K 0 r sigma ("call") = Except.ok 0 ∧
    (∀ T : ℝ, main S K T r 0 = MainResult.rejected rejectMsg) := by
  refine ⟨?_, call_price_degenerate (Or.inl le_rfl) S K r,
    put_price_degenerate (Or.inl le_rfl) S K r,
    black_scholes_degenerate S K 0 r sigma ("call") (Or.inl le_rfl), fun T => ?_⟩
  · unfold main
    rw [if_neg (by push_neg; exact ⟨hS, hK, le_rfl, hsig⟩)]
  · unfold main
    rw [if_pos (Or.inr (Or.inr (Or.inr le_rfl)))]

theorem C6_witness :
    call_price 100 100 0 0.05 0.2 = 0 ∧ main 100 100 1 0.05 0 = MainResult.rejected rejectMsg :=
  ⟨(C6_degenerate_boundary_amended 100 100 0.05 0.2 (by norm_num) (by norm_num)
      (by norm_num)).2.1,
   (C6_degenerate_boundary_amended 100 100 0.05 0.2 (by norm_num) (by norm_num)
      (by norm_num)).2.2.2.2 1⟩

/-- C7: the presentation layer rejects, with the user-visible message of
line 36 and without computing anything, every state with `S≤0`, `K≤0`, `T<0`
or `σ≤0`; for every other state the engine is invoked and yields the scalar
prices and the grids. -/
theorem C7_validation_boundary (S K T r sigma : ℝ) :
    ((S ≤ 0 ∨ K ≤ 0 ∨ T < 0 ∨ sigma ≤ 0) →
      main S K T r sigma = MainResult.rejected rejectMsg) ∧
    (¬(S ≤ 0 ∨ K ≤ 0 ∨ T < 0 ∨ sigma ≤ 0) →
      main S K T r sigma =
        MainResult.computed (call_price S K T r sigma) (put_price S K T r sigma)
          (call_prices S K T r sigma) (put_prices S K T r sigma) ∧
      black_scholes S K T r sigma ("call") = Except.ok (call_price S K T r sigma) ∧
      black_scholes S K T r sigma ("put") = Except.ok (put_price S K T r sigma)) := by
  constructor
  · intro h
    unfold main
    rw [if_pos h]
  · intro h
    unfold main
    rw [if_neg h]
    exact ⟨rfl, black_scholes_call S K T r sigma, black_scholes_put S K T r sigma⟩

theorem C7_witness :
    main 0 100 1 0.05 0.2 = MainResult.rejected rejectMsg :=
  (C7_validation_boundary 0 100 1 0.05 0.2).1 (Or.inl le_rfl)

/-- C8: for every valid input (spot>0, strike>0, maturity≥0, volatility≥0),
the call price and the put price are both nonnegative. -/
theorem C8_price_nonneg (S K T r sigma : ℝ) (hS : 0 < S) (hK : 0 < K)
    (hT : 0 ≤ T) (hsig : 0 ≤ sigma) :
    0 ≤ call_price S K T r sigma ∧ 0 ≤ put_price S K T r sigma := by
  rcases le_or_lt T 0 with h | hTpos
  · rw [call_price_degenerate (Or.inl h), put_price_degenerate (Or.inl h)]
    exact ⟨le_rfl, le_rfl⟩
  rcases le_or_lt sigma 0 with h | hsigpos
  · rw [call_price_degenerate (Or.inr h), put_price_degenerate (Or.inr h)]
    exact ⟨le_rfl, le_rfl⟩
  exact ⟨call_price_nonneg r hS hK hTpos hsigpos,
    put_price_nonneg r hS hK hTpos hsigpos⟩

theorem C8_witness :
    0 ≤ call_price 100 100 1 0.05 0.2 ∧ 0 ≤ put_price 100 100 1 0.05 0.2 :=
  C8_price_nonneg 100 100 1 0.05 0.2 (by norm_num) (by norm_num) (by norm_num)
    (by norm_num)

/-- C9: holding strike, maturity, rate and volatility fixed (with a valid
strike), the call price is non-decreasing and the put price non-increasing in
the spot, over valid spots `0 < S1 ≤ S2`. -/
theorem C9_monotone_in_spot (K T r sigma : ℝ) (hK : 0 < K) (S1 S2 : ℝ)
    (hS1 : 0 < S1) (h12 : S1 ≤ S2) :
    call_price S1 K T r sigma ≤ call_price S2 K T r sigma ∧
    put_price S2 K T r sigma ≤ put_price S1 K T r sigma := by
  have hS2 : 0 < S2 := lt_of_lt_of_le hS1 h12
  rcases le_or_lt T 0 with h | hTpos
  · rw [call_price_degenerate (Or.inl h), call_price_degenerate (Or.inl h),
      put_price_degenerate (Or.inl h), put_price_degenerate (Or.inl h)]
    exact ⟨le_rfl, le_rfl⟩
  rcases le_or_lt sigma 0 with h | hsigpos
  · rw [call_price_degenerate (Or.inr h), call_price_degenerate (Or.inr h),
      put_price_degenerate (Or.inr h), put_price_degenerate (Or.inr h)]
    exact ⟨le_rfl, le_rfl⟩
  exact ⟨call_price_monotoneOn hK hTpos hsigpos (mem_Ioi.mpr hS1) (mem_Ioi.mpr hS2) h12,
    put_price_antitoneOn hK hTpos hsigpos (mem_Ioi.mpr hS1) (mem_Ioi.mpr hS2) h12⟩

theorem C9_witness :
    call_price 90 100 1 0.05 0.2 ≤ call_price 110 100 1 0.05 0.2 ∧
    put_price 110 100 1 0.05 0.2 ≤ put_price 90 100 1 0.05 0.2 :=
  C9_monotone_in_spot 100 1 0.05 0.2 (by norm_num) 90 110 (by norm_num) (by norm_num)

/-- C10: the degenerate guard of line 8 is checked before the kind check of
lines 14-19: whenever `T ≤ 0` or `σ ≤ 0`, `black_scholes` returns `0.0`
without raising, for every `option_type` string whatsoever; consequently the
invalid-kind error is only reachable when `T > 0` and `σ > 0`. -/
theorem C10_guard_precedes_kind_check (S K T r sigma : ℝ) (option_type : String) :
    ((T ≤ 0 ∨ sigma ≤ 0) → black_scholes S K T r sigma option_type = Except.ok 0) ∧
    (∀ e : String,
      black_scholes S K T r sigma option_type = Except.error e → 0 < T ∧ 0 < sigma) := by
  constructor
  · exact black_scholes_degenerate S K T r sigma option_type
  · intro e he
    by_contra hcon
    have hdeg : T ≤ 0 ∨ sigma ≤ 0 := by
      rcases not_and_or.mp hcon with h | h
      exacts [Or.inl (not_lt.mp h), Or.inr (not_lt.mp h)]
    rw [black_scholes_degenerate S K T r sigma option_type hdeg] at he
    exact Except.noConfusion he

theorem C10_witness :
    black_scholes 100 100 0 0.05 0.2 ("weird") = Except.ok 0 :=
  (C10_guard_precedes_kind_check 100 100 0 0.05 0.2 ("weird")).1 (Or.inl le_rfl)

end App
